import Mathlib

/-!
Shallow embedding of `procon-lib-tester` (src/src/main.rs), a test-harness
driver for a collection of header-only library files.  Paths are modelled as
lists of component names, deepest component first (so `/a/b/c` is
`["c","b","a"]` with each name a `List Char`); strings are `List Char`.
The filesystem, the terminal and the external `procon-assistant` process are
modelled as explicit oracles passed to the functions that consult them.
-/

namespace ProconLibTester

/-- A file or directory name: one path component, as a list of characters. -/
abbrev Name := List Char

/-- An absolute path, deepest component first; `[]` is the filesystem root `/`. -/
abbrev Path := List Name

/-- Split a name at its last `.`: `some (before, after)`, or `none` when the
name contains no dot.  Mirrors the search for the final `.` done by
`std::path`'s `split_file_at_dot`. -/
def splitLastDot : Name → Option (Name × Name)
  | [] => none
  | c :: rest =>
    match splitLastDot rest with
    | some (b, a) => some (c :: b, a)
    | none => if c = '.' then some ([], rest) else none

/-- Rust `Path::extension` on a file name: the portion after the final `.`,
unless the name is `..`, has no dot, or the only dot is leading. -/
def rustExtension (s : Name) : Option Name :=
  if s = ['.', '.'] then none
  else
    match splitLastDot s with
    | some (b, a) => if b = [] then none else some a
    | none => none

/-- Rust `Path::file_stem` on a file name: the portion before the final `.`,
or the whole name when `rustExtension` is `none`. -/
def rustFileStem (s : Name) : Option Name :=
  if s = [] then none
  else if s = ['.', '.'] then some ['.', '.']
  else
    match splitLastDot s with
    | some (b, _) => if b = [] then some s else some b
    | none => some s

/-- Rust `Path::with_extension(ext)` (for a nonempty `ext`) applied to a file
name: the stem followed by `.ext`; the name is unchanged when it has no stem. -/
def withExtensionName (s : Name) (ext : Name) : Name :=
  match rustFileStem s with
  | none => s
  | some stem => stem ++ '.' :: ext

/-- Rust `PathBuf::with_extension(ext)` on a path: replace the extension of the
deepest component; a path with no components is unchanged. -/
def withExtension : Path → Name → Path
  | [], _ => []
  | n :: p, ext => withExtensionName n ext :: p

/-- The struct `Test` of main.rs: a library file paired with its test project
directory. -/
structure Test where
  library : Path
  project : Path
  deriving Repr, DecidableEq

/-- Rust `Test::new`: the project path is the library path with its extension
replaced by `test`. -/
def Test.new (library : Path) : Test :=
  { library := library, project := withExtension library "test".data }

/-- The enum `TestResult` of main.rs. -/
inductive TestResult where
  | Succeeded
  | Failed
  | NotFound
  deriving Repr, DecidableEq

/-- If `a` contains no dot, the last dot of `b ++ '.' :: a` is that separator. -/
theorem splitLastDot_append_sep (b a : Name) (ha : splitLastDot a = none) :
    splitLastDot (b ++ '.' :: a) = some (b, a) := by
  induction b with
  | nil => simp [splitLastDot, ha]
  | cons c b ih => simp [splitLastDot, ih]

/-- A filesystem subtree.  `file` is a regular file; `dir` a readable directory
with its listing (in the order the OS returns entries); `badDir` a directory
whose listing fails with an I/O error; `other` an entry that is neither a
regular file nor a directory. -/
inductive Fs where
  | file : Fs
  | dir : List (Name × Fs) → Fs
  | badDir : Fs
  | other : Fs
  deriving Repr

mutual
/-- The function `enumerate_tests` of main.rs: list the tests under `target`.  Reading a
non-directory (or a `badDir`) is the `fs::read_dir` failure case.  A regular
file whose name has extension `hpp` yields a `Test`; a directory is recursed
into; anything else is ignored. -/
def enumerate_tests (target : Path) : Fs → Except Unit (List Test)
  | .dir entries => enumerateEntries target entries
  | _ => .error ()

/-- The `for entry in entries` loop of `enumerate_tests`, over the remaining
directory entries. -/
def enumerateEntries (target : Path) : List (Name × Fs) → Except Unit (List Test)
  | [] => .ok []
  | (name, child) :: rest =>
    match (match child with
           | .file =>
             if rustExtension name = some "hpp".data
             then Except.ok [Test.new (name :: target)] else Except.ok []
           | .dir cs => enumerate_tests (name :: target) (.dir cs)
           | .badDir => enumerate_tests (name :: target) .badDir
           | .other => Except.ok []) with
    | .error e => .error e
    | .ok here =>
      match enumerateEntries target rest with
      | .error e => .error e
      | .ok there => .ok (here ++ there)
end

mutual
/-- Modelled from the spec (§4.2, §8): the paths of all regular files with the
library extension `hpp` found anywhere under a directory tree, at any nesting
depth, in listing order.  This is the specification-side description of what
enumeration must produce; it is compared with `enumerate_tests` below. -/
def hppFiles (target : Path) : Fs → List Path
  | .dir entries => hppFilesEntries target entries
  | _ => []

/-- Entry-list form of `hppFiles`. -/
def hppFilesEntries (target : Path) : List (Name × Fs) → List Path
  | [] => []
  | (name, child) :: rest =>
    (match child with
     | .file =>
       if rustExtension name = some "hpp".data then [name :: target] else []
     | .dir cs => hppFiles (name :: target) (.dir cs)
     | _ => []) ++ hppFilesEntries target rest
end

mutual
/-- Every directory in the subtree can be listed: no `badDir` anywhere. -/
def readable : Fs → Bool
  | .dir entries => readableEntries entries
  | .badDir => false
  | _ => true

/-- Entry-list form of `readable`. -/
def readableEntries : List (Name × Fs) → Bool
  | [] => true
  | (_, child) :: rest => readable child && readableEntries rest
end

mutual
/-- On a fully readable directory, enumeration succeeds and returns exactly
the `hpp` files, each wrapped by `Test.new`. -/
theorem enum_ok_dir (target : Path) (cs : List (Name × Fs))
    (h : readableEntries cs = true) :
    enumerate_tests target (.dir cs) = .ok ((hppFiles target (.dir cs)).map Test.new) := by
  have := enum_ok_entries target cs h
  simpa [enumerate_tests, hppFiles] using this
termination_by 1 + sizeOf cs

/-- Entry-list form of `enum_ok_dir`. -/
theorem enum_ok_entries (target : Path) (entries : List (Name × Fs))
    (h : readableEntries entries = true) :
    enumerateEntries target entries = .ok ((hppFilesEntries target entries).map Test.new) := by
  match entries with
  | [] => simp [enumerateEntries, hppFilesEntries]
  | (name, child) :: rest =>
    rw [readableEntries, Bool.and_eq_true] at h
    have hrest := enum_ok_entries target rest h.2
    cases child with
    | file =>
      by_cases hx : rustExtension name = some "hpp".data <;>
        simp [enumerateEntries, hppFilesEntries, hx, hrest]
    | dir cs =>
      have hc := enum_ok_dir (name :: target) cs (by rw [readable] at h; exact h.1)
      simp [enumerateEntries, hppFilesEntries, hc, hrest]
    | badDir => rw [readable] at h; exact absurd h.1 (by simp)
    | other => simp [enumerateEntries, hppFilesEntries, hrest]
termination_by sizeOf entries
end

mutual
/-- If some directory in the subtree cannot be listed, enumeration of the
whole tree aborts with the I/O error. -/
theorem enum_err_dir (target : Path) (cs : List (Name × Fs))
    (h : readableEntries cs = false) :
    enumerate_tests target (.dir cs) = .error () := by
  have := enum_err_entries target cs h
  simpa [enumerate_tests] using this
termination_by 1 + sizeOf cs

/-- Entry-list form of `enum_err_dir`. -/
theorem enum_err_entries (target : Path) (entries : List (Name × Fs))
    (h : readableEntries entries = false) :
    enumerateEntries target entries = .error () := by
  match entries with
  | [] => rw [readableEntries] at h; exact absurd h (by simp)
  | (name, child) :: rest =>
    rw [readableEntries, Bool.and_eq_false_iff] at h
    cases child with
    | file =>
      have hrest : readableEntries rest = false := by
        rcases h with h | h
        · simp [readable] at h
        · exact h
      have := enum_err_entries target rest hrest
      by_cases hx : rustExtension name = some "hpp".data <;>
        simp [enumerateEntries, hx, this]
    | dir cs =>
      rw [readable] at h
      rcases h with h | h
      · have hc := enum_err_dir (name :: target) cs h
        simp [enumerateEntries, hc]
      · have hrest := enum_err_entries target rest h
        cases hcs : readableEntries cs with
        | false =>
          have hc := enum_err_dir (name :: target) cs hcs
          simp [enumerateEntries, hc]
        | true =>
          have hc := enum_ok_dir (name :: target) cs hcs
          simp [enumerateEntries, hc, hrest]
    | badDir =>
      have hrest := enumerateEntries target rest
      simp [enumerateEntries, enumerate_tests]
    | other =>
      have hrest : readableEntries rest = false := by
        rcases h with h | h
        · simp [readable] at h
        · exact h
      have := enum_err_entries target rest hrest
      simp [enumerateEntries, this]
termination_by sizeOf entries
end

/-- The function `check_root` of main.rs: the candidate contains the marker entry
`marker_lib_root`.  `ex` is the filesystem existence oracle
(`Path::exists`). -/
def check_root (ex : Path → Bool) (path : Path) : Bool :=
  ex ("marker_lib_root".data :: path)

/-- The function `find_lib_root` of main.rs: starting from the current working directory
(reached from the pushed dummy component via `parent()`), walk upward; the
first candidate containing the marker is the root; reaching above the
filesystem root `[]` without a hit is an error. -/
def find_lib_root (ex : Path → Bool) : Path → Except Unit Path
  | [] => if check_root ex [] then .ok [] else .error ()
  | n :: parent =>
    if check_root ex (n :: parent) then .ok (n :: parent)
    else find_lib_root ex parent

/-- The separator `MAIN_SEPARATOR` on the target platform. -/
def MAIN_SEPARATOR : Char := '/'

/-- The function `path_root_removed` of main.rs, on the `display` renderings of the two
paths: strip `root` followed by the separator when it starts the string,
otherwise return the string unchanged. -/
def path_root_removed (path root : List Char) : List Char :=
  let root' := root ++ [MAIN_SEPARATOR]
  if root'.isPrefixOf path then path.drop root'.length else path

/-- Rust `Path::display` for our absolute paths: `/a/b` from `["b","a"]`. -/
def display (p : Path) : List Char :=
  p.reverse.foldl (fun acc n => acc ++ MAIN_SEPARATOR :: n) []

/-- The mutable locals of `main` that the command line configures. -/
structure Config where
  colorize : Bool
  force : Bool
  simple : Bool
  deriving Repr, DecidableEq

/-- One iteration of the argument loop in `main`: update the configuration or
fail with the message naming the unknown argument. -/
def applyArg (cfg : Config) (arg : String) : Except String Config :=
  if arg = "--color=always" then .ok { cfg with colorize := true }
  else if arg = "--color=none" then .ok { cfg with colorize := false }
  else if arg = "--color=auto" then .ok cfg
  else if arg = "--no-force" ∨ arg = "-n" then .ok { cfg with force := false }
  else if arg = "--simple" ∨ arg = "-s" then .ok { cfg with simple := true }
  else .error ("unknown command line argument: " ++ arg)

/-- The argument loop of `main`, from a given configuration. -/
def parseArgsFrom (cfg : Config) : List String → Except String Config
  | [] => .ok cfg
  | a :: rest =>
    match applyArg cfg a with
    | .error e => .error e
    | .ok cfg2 => parseArgsFrom cfg2 rest

/-- Argument handling of `main`: `colorize` starts from terminal detection,
`force` starts `true`, `simple` starts `false`. -/
def parseArgs (isTty : Bool) (args : List String) : Except String Config :=
  parseArgsFrom { colorize := isTty, force := true, simple := false } args

/-- Modelled from the spec (§6): the full set of recognized command-line
arguments. -/
def recognizedArgs : List String :=
  ["--color=always", "--color=none", "--color=auto", "--no-force", "-n",
   "--simple", "-s"]

/-- How `Command` wires one standard stream (`Stdio::null` / inherited). -/
inductive StreamMode where
  | null
  | inherit
  deriving Repr, DecidableEq

/-- The subprocess invocation built by `Test::judge`: program, arguments,
working directory and stream wiring. -/
structure Invocation where
  program : String
  args : List String
  cwd : Path
  stdin : StreamMode
  stdout : StreamMode
  stderr : StreamMode
  deriving Repr, DecidableEq

/-- The `Command` constructed by `Test::judge` for a given project directory:
`procon-assistant --quiet run [--force]`, run in the project directory, with
stdin and stdout null and stderr null exactly when `simple` is set. -/
def buildCommand (force simple : Bool) (project : Path) : Invocation :=
  { program := "procon-assistant"
    args := ["--quiet", "run"] ++ (if force then ["--force"] else [])
    cwd := project
    stdin := .null
    stdout := .null
    stderr := if simple then .null else .inherit }

/-- The external world `Test::judge` consults: path existence, and the status
of a launched subprocess (`none` models `Command::status` returning an error,
i.e. the tool could not be launched; `some b` an exit with success `b`). -/
structure World where
  pathExists : Path → Bool
  runStatus : Invocation → Option Bool

/-- The method `Test::judge` of main.rs.  Also returns the list of subprocess invocations
performed, so that "no subprocess is invoked" is expressible. -/
def Test.judge (w : World) (force simple : Bool) (t : Test) :
    List Invocation × Except Unit TestResult :=
  if w.pathExists t.project then
    let cmd := buildCommand force simple t.project
    match w.runStatus cmd with
    | none => ([cmd], .error ())
    | some ok => ([cmd], .ok (if ok then .Succeeded else .Failed))
  else ([], .ok .NotFound)

/-- The per-test loop of `main`: judge each test in order; a judge I/O error
aborts the loop (the `?` operator), while any classified result is recorded
and processing continues.  Also accumulates all subprocess invocations. -/
def runAll (w : World) (force simple : Bool) :
    List Test → List Invocation × Except Unit (List TestResult)
  | [] => ([], .ok [])
  | t :: ts =>
    match t.judge w force simple with
    | (inv, .error e) => (inv, .error e)
    | (inv, .ok res) =>
      match runAll w force simple ts with
      | (invs, .error e) => (inv ++ invs, .error e)
      | (invs, .ok others) => (inv ++ invs, .ok (res :: others))

/-- The counter updates of the per-test loop in `main`, in the order
`(success, failure, notfound)`. -/
def countResults (rs : List TestResult) : Nat × Nat × Nat :=
  rs.foldl
    (fun c r =>
      match r with
      | .Succeeded => (c.1 + 1, c.2.1, c.2.2)
      | .Failed => (c.1, c.2.1 + 1, c.2.2)
      | .NotFound => (c.1, c.2.1, c.2.2 + 1))
    (0, 0, 0)

/-- The numbers printed on the final summary line of `main`, in print order. -/
structure Summary where
  total : Nat
  skipped : Nat
  succeeded : Nat
  failed : Nat
  deriving Repr, DecidableEq

/-- The summary line of `main`: total printed as `success + failure +
notfound`, skipped is the not-found count. -/
def summarize (rs : List TestResult) : Summary :=
  let c := countResults rs
  { total := c.1 + c.2.1 + c.2.2
    skipped := c.2.2
    succeeded := c.1
    failed := c.2.1 }

/-- The distinct ways `main` can return an error. -/
inductive MainErr where
  | unknownArg (msg : String)
  | rootNotFound
  | enumerationFailed
  | judgeFailed
  | someTestFailed (s : Summary)
  deriving Repr

/-- Everything outside the process that `main` consults. -/
structure MainWorld where
  isTty : Bool
  cwd : Path
  pathExists : Path → Bool
  treeAt : Path → Fs
  runStatus : Invocation → Option Bool

/-- The function `main` of main.rs as a function of the outside world: parse arguments,
locate the root, enumerate tests, judge them all, then fail iff the failure
counter is non-zero. -/
def mainModel (w : MainWorld) (args : List String) : Except MainErr Summary :=
  match parseArgs w.isTty args with
  | .error msg => .error (.unknownArg msg)
  | .ok cfg =>
    match find_lib_root w.pathExists w.cwd with
    | .error _ => .error .rootNotFound
    | .ok root =>
      match enumerate_tests root (w.treeAt root) with
      | .error _ => .error .enumerationFailed
      | .ok tests =>
        match (runAll ⟨w.pathExists, w.runStatus⟩ cfg.force cfg.simple tests).2 with
        | .error _ => .error .judgeFailed
        | .ok results =>
          let s := summarize results
          if s.failed ≠ 0 then .error (.someTestFailed s) else .ok s

theorem splitLastDot_eq_none_iff (s : Name) :
    splitLastDot s = none ↔ '.' ∉ s := by
  induction s with
  | nil => simp [splitLastDot]
  | cons c rest ih =>
    simp only [splitLastDot]
    cases h : splitLastDot rest with
    | some p => simp [h] at ih ⊢; simp [ih]
    | none =>
      simp [h] at ih
      by_cases hc : c = '.'
      · simp [hc, ih]
      · simp [hc, ih, Ne.symm hc]

theorem countResults_foldl (c : Nat × Nat × Nat) (rs : List TestResult) :
    rs.foldl
      (fun c r =>
        match r with
        | .Succeeded => (c.1 + 1, c.2.1, c.2.2)
        | .Failed => (c.1, c.2.1 + 1, c.2.2)
        | .NotFound => (c.1, c.2.1, c.2.2 + 1)) c
      = (c.1 + rs.count .Succeeded, c.2.1 + rs.count .Failed,
         c.2.2 + rs.count .NotFound) := by
  induction rs generalizing c with
  | nil => simp
  | cons r rs ih =>
    cases r <;> simp [List.count_cons, ih] <;> omega

/-- The three counters of `main` are exactly the occurrence counts of the
three outcomes. -/
theorem countResults_spec (rs : List TestResult) :
    countResults rs =
      (rs.count .Succeeded, rs.count .Failed, rs.count .NotFound) := by
  simpa using countResults_foldl (0, 0, 0) rs

theorem count_three_eq_length (rs : List TestResult) :
    rs.count .Succeeded + rs.count .Failed + rs.count .NotFound = rs.length := by
  induction rs with
  | nil => simp
  | cons r rs ih => cases r <;> simp [List.count_cons] <;> omega

/-- An argument outside the recognized set makes the loop fail with the
message that names it. -/
theorem applyArg_err (cfg : Config) (a : String) (ha : a ∉ recognizedArgs) :
    applyArg cfg a = .error ("unknown command line argument: " ++ a) := by
  simp only [recognizedArgs, List.mem_cons, List.not_mem_nil, or_false] at ha
  push_neg at ha
  obtain ⟨h1, h2, h3, h4, h5, h6, h7⟩ := ha
  simp [applyArg, h1, h2, h3, h4, h5, h6, h7]

/-- A recognized argument is accepted by the loop. -/
theorem applyArg_ok (cfg : Config) (a : String) (ha : a ∈ recognizedArgs) :
    ∃ cfg2, applyArg cfg a = .ok cfg2 := by
  simp only [recognizedArgs, List.mem_cons, List.not_mem_nil, or_false] at ha
  rcases ha with h | h | h | h | h | h | h <;> subst h <;> simp [applyArg]

/-- The argument loop succeeds exactly when every argument is recognized. -/
theorem parseArgsFrom_ok_iff (cfg : Config) (args : List String) :
    (parseArgsFrom cfg args).isOk = true ↔ ∀ a ∈ args, a ∈ recognizedArgs := by
  induction args generalizing cfg with
  | nil => simp [parseArgsFrom, Except.isOk, Except.toBool]
  | cons a rest ih =>
    by_cases ha : a ∈ recognizedArgs
    · obtain ⟨cfg2, h2⟩ := applyArg_ok cfg a ha
      simp [parseArgsFrom, h2, ih, ha]
    · simp [parseArgsFrom, applyArg_err cfg a ha, Except.isOk, Except.toBool, ha]

/-- The first unrecognized argument is the one named in the error. -/
theorem parseArgsFrom_err (cfg : Config) (pre : List String) (a : String)
    (rest : List String) (hpre : ∀ b ∈ pre, b ∈ recognizedArgs)
    (ha : a ∉ recognizedArgs) :
    parseArgsFrom cfg (pre ++ a :: rest) =
      .error ("unknown command line argument: " ++ a) := by
  induction pre generalizing cfg with
  | nil => simp [parseArgsFrom, applyArg_err cfg a ha]
  | cons b pre ih =>
    obtain ⟨cfg2, h2⟩ := applyArg_ok cfg b (hpre b (by simp))
    simp only [List.cons_append, parseArgsFrom, h2]
    exact ih cfg2 fun x hx => hpre x (by simp [hx])

/-- One loop step can only turn `force` off, and does so exactly for
`--no-force` and `-n`. -/
theorem applyArg_force (cfg cfg2 : Config) (a : String)
    (h : applyArg cfg a = .ok cfg2) :
    (cfg2.force = false ↔ (cfg.force = false ∨ a = "--no-force" ∨ a = "-n")) := by
  unfold applyArg at h
  split_ifs at h with h1 h2 h3 h4 h5 <;>
    simp only [Except.ok.injEq] at h <;> subst h
  · subst h1; simp
  · subst h2; simp
  · subst h3; simp
  · rcases h4 with h4 | h4 <;> subst h4 <;> simp
  · rcases h5 with h5 | h5 <;> subst h5 <;> simp

/-- One loop step can only turn `simple` on, and does so exactly for
`--simple` and `-s`. -/
theorem applyArg_simple (cfg cfg2 : Config) (a : String)
    (h : applyArg cfg a = .ok cfg2) :
    (cfg2.simple = true ↔ (cfg.simple = true ∨ a = "--simple" ∨ a = "-s")) := by
  unfold applyArg at h
  split_ifs at h with h1 h2 h3 h4 h5 <;>
    simp only [Except.ok.injEq] at h <;> subst h
  · subst h1; simp
  · subst h2; simp
  · subst h3; simp
  · rcases h4 with h4 | h4 <;> subst h4 <;> simp
  · rcases h5 with h5 | h5 <;> subst h5 <;> simp

theorem parseArgsFrom_force (cfg : Config) (args : List String) (cfg2 : Config)
    (h : parseArgsFrom cfg args = .ok cfg2) :
    (cfg2.force = false ↔
      (cfg.force = false ∨ "--no-force" ∈ args ∨ "-n" ∈ args)) := by
  induction args generalizing cfg with
  | nil =>
    simp only [parseArgsFrom, Except.ok.injEq] at h
    subst h; simp
  | cons a rest ih =>
    simp only [parseArgsFrom] at h
    cases ha : applyArg cfg a with
    | error e => rw [ha] at h; cases h
    | ok cfgm =>
      rw [ha] at h
      have h1 := applyArg_force cfg cfgm a ha
      have h2 := ih cfgm h
      simp only [List.mem_cons] at *
      rw [h2, h1]
      constructor
      · rintro ((hc | hc) | hc | hc) <;> tauto
      · rintro (hc | (hc | hc) | (hc | hc)) <;> tauto

theorem parseArgsFrom_simple (cfg : Config) (args : List String) (cfg2 : Config)
    (h : parseArgsFrom cfg args = .ok cfg2) :
    (cfg2.simple = true ↔
      (cfg.simple = true ∨ "--simple" ∈ args ∨ "-s" ∈ args)) := by
  induction args generalizing cfg with
  | nil =>
    simp only [parseArgsFrom, Except.ok.injEq] at h
    subst h; simp
  | cons a rest ih =>
    simp only [parseArgsFrom] at h
    cases ha : applyArg cfg a with
    | error e => rw [ha] at h; cases h
    | ok cfgm =>
      rw [ha] at h
      have h1 := applyArg_simple cfg cfgm a ha
      have h2 := ih cfgm h
      simp only [List.mem_cons] at *
      rw [h2, h1]
      constructor
      · rintro ((hc | hc) | hc | hc) <;> tauto
      · rintro (hc | (hc | hc) | (hc | hc)) <;> tauto

/-- The search fails exactly when no suffix of the working directory — the
directory itself, every ancestor, and the filesystem root `[]` — contains the
marker. -/
theorem find_lib_root_err_iff (ex : Path → Bool) (p : Path) :
    find_lib_root ex p = .error () ↔
      ∀ q ∈ p.tails, check_root ex q = false := by
  induction p with
  | nil =>
    by_cases h : check_root ex [] <;> simp [find_lib_root, h]
  | cons n parent ih =>
    by_cases h : check_root ex (n :: parent) <;>
      simp [find_lib_root, h, ih, List.tails]

theorem splitLastDot_eq (s b a : Name) (h : splitLastDot s = some (b, a)) :
    s = b ++ '.' :: a := by
  induction s generalizing b a with
  | nil => simp [splitLastDot] at h
  | cons c rest ih =>
    rw [splitLastDot] at h
    cases hr : splitLastDot rest with
    | some p =>
      rw [hr] at h
      obtain ⟨b2, a2⟩ := p
      simp only [Option.some.injEq, Prod.mk.injEq] at h
      obtain ⟨h1, h2⟩ := h
      subst h1; subst h2
      simp [ih b2 a2 hr]
    | none =>
      rw [hr] at h
      by_cases hc : c = '.'
      · rw [if_pos hc] at h
        cases h
        simp [hc]
      · simp [hc] at h

theorem ne_dotdot_of_append (stem ext : Name) (hstem : stem ≠ [])
    (hne : ext ≠ []) : stem ++ '.' :: ext ≠ ['.', '.'] := by
  cases stem with
  | nil => simp at hstem
  | cons c stem2 =>
    cases ext with
    | nil => simp at hne
    | cons d ext2 =>
      intro hc
      have hlen := congrArg List.length hc
      simp [List.length_append] at hlen
      omega

/-- The extension of `stem.ext` is `ext` (for nonempty stem, dotless
nonempty ext). -/
theorem rustExtension_append (stem ext : Name) (hstem : stem ≠ [])
    (hext : splitLastDot ext = none) (hne : ext ≠ []) :
    rustExtension (stem ++ '.' :: ext) = some ext := by
  have hs := splitLastDot_append_sep stem ext hext
  rw [rustExtension, if_neg (ne_dotdot_of_append stem ext hstem hne), hs]
  simp [hstem]

/-- The stem of `stem.ext` is `stem` (for nonempty stem, dotless
nonempty ext). -/
theorem rustFileStem_append (stem ext : Name) (hstem : stem ≠ [])
    (hext : splitLastDot ext = none) (hne : ext ≠ []) :
    rustFileStem (stem ++ '.' :: ext) = some stem := by
  have hs := splitLastDot_append_sep stem ext hext
  rw [rustFileStem, if_neg (by simp), if_neg (ne_dotdot_of_append stem ext hstem hne), hs]
  simp [hstem]

/-- Replacing the extension of `stem.ext` by `ext2` yields `stem.ext2`. -/
theorem withExtensionName_append (stem ext ext2 : Name) (hstem : stem ≠ [])
    (hext : splitLastDot ext = none) (hne : ext ≠ []) :
    withExtensionName (stem ++ '.' :: ext) ext2 = stem ++ '.' :: ext2 := by
  rw [withExtensionName, rustFileStem_append stem ext hstem hext hne]

/-- Any name whose extension is `e` has the shape `stem.e` with nonempty
stem. -/
theorem rustExtension_some_shape (s e : Name) (h : rustExtension s = some e) :
    ∃ stem, stem ≠ [] ∧ s = stem ++ '.' :: e := by
  rw [rustExtension] at h
  by_cases hdd : s = ['.', '.']
  · rw [if_pos hdd] at h; cases h
  · rw [if_neg hdd] at h
    cases hs : splitLastDot s with
    | none => rw [hs] at h; cases h
    | some p =>
      obtain ⟨b, a⟩ := p
      rw [hs] at h
      dsimp only at h
      by_cases hb : b = []
      · rw [if_pos hb] at h; cases h
      · rw [if_neg hb] at h
        simp only [Option.some.injEq] at h
        subst h
        exact ⟨b, hb, splitLastDot_eq s b _ hs⟩

theorem isPrefixOf_iff_ex (l1 l2 : List Char) :
    l1.isPrefixOf l2 = true ↔ ∃ r, l2 = l1 ++ r := by
  induction l1 generalizing l2 with
  | nil => simp [List.isPrefixOf]
  | cons c t ih =>
    cases l2 with
    | nil => simp [List.isPrefixOf]
    | cons d u =>
      simp only [List.isPrefixOf, Bool.and_eq_true, beq_iff_eq, ih,
        List.cons_append, List.cons.injEq]
      constructor
      · rintro ⟨h1, r, h2⟩; exact ⟨r, h1.symm, h2⟩
      · rintro ⟨r, h1, h2⟩; exact ⟨h1.symm, r, h2⟩

theorem drop_length_append (l r : List Char) : (l ++ r).drop l.length = r := by
  induction l with
  | nil => simp
  | cons c t ih => simp [ih]

/-- A classified outcome lets the loop continue to the remaining tests. -/
theorem runAll_cons_ok (w : World) (f s : Bool) (t : Test) (ts : List Test)
    (r : TestResult) (h : (t.judge w f s).2 = .ok r) :
    (runAll w f s (t :: ts)).2 =
      match (runAll w f s ts).2 with
      | .error e => .error e
      | .ok os => .ok (r :: os) := by
  rcases hj : t.judge w f s with ⟨inv, res⟩
  rw [hj] at h
  simp only at h
  subst h
  rcases hr : runAll w f s ts with ⟨invs, rr⟩
  cases rr <;> simp [runAll, hj, hr]

/-- A launch failure aborts the whole loop. -/
theorem runAll_cons_err (w : World) (f s : Bool) (t : Test) (ts : List Test)
    (h : (t.judge w f s).2 = .error ()) :
    (runAll w f s (t :: ts)).2 = .error () := by
  rcases hj : t.judge w f s with ⟨inv, res⟩
  rw [hj] at h
  simp only at h
  subst h
  simp [runAll, hj]

/-- C1: for every run that completes enumeration and judges all units, the
printed summary counters satisfy `total = succeeded + failed + not_found`
(each counter being the occurrence count of its outcome, so the total is the
number of units), and the process exit status is non-zero iff the failed count
is positive; a non-zero not-found count alone never causes a failing exit
status. -/
theorem claim1_summary_counters_and_exit (w : MainWorld) (args : List String)
    (cfg : Config) (root : Path) (tests : List Test)
    (results : List TestResult)
    (hp : parseArgs w.isTty args = .ok cfg)
    (hr : find_lib_root w.pathExists w.cwd = .ok root)
    (he : enumerate_tests root (w.treeAt root) = .ok tests)
    (hj : (runAll ⟨w.pathExists, w.runStatus⟩ cfg.force cfg.simple tests).2 =
      .ok results) :
    (summarize results).total =
      (summarize results).succeeded + (summarize results).failed +
        (summarize results).skipped ∧
    (summarize results).succeeded = results.count .Succeeded ∧
    (summarize results).failed = results.count .Failed ∧
    (summarize results).skipped = results.count .NotFound ∧
    (summarize results).total = results.length ∧
    (mainModel w args = .error (.someTestFailed (summarize results)) ↔
      0 < (summarize results).failed) ∧
    ((summarize results).failed = 0 →
      mainModel w args = .ok (summarize results)) := by
  have hc := countResults_spec results
  have hmain : mainModel w args =
      if (summarize results).failed ≠ 0
      then .error (.someTestFailed (summarize results))
      else .ok (summarize results) := by
    simp only [mainModel, hp, hr, he, hj]
  refine ⟨?_, ?_, ?_, ?_, ?_, ?_, ?_⟩
  · simp [summarize]
  · simp [summarize, hc]
  · simp [summarize, hc]
  · simp [summarize, hc]
  · simp only [summarize, hc]
    exact count_three_eq_length results
  · rw [hmain]
    by_cases hf : (summarize results).failed = 0
    · simp [hf]
    · have hpos := Nat.pos_of_ne_zero hf
      simp [hf, hpos]
  · intro h0
    rw [hmain]
    simp [h0]

/-- C2: for every directory tree, enumeration of a readable tree returns
exactly one `LibraryUnit` per regular file with extension `hpp` found at any
nesting depth (files with that extension are emitted, directories are recursed
into, other entries are ignored — this is what `hppFiles` collects), and any
I/O error while reading a directory aborts enumeration and propagates. -/
theorem claim2_enumerate_spec (target : Path) (entries : List (Name × Fs)) :
    (readable (.dir entries) = true →
      enumerate_tests target (.dir entries) =
        .ok ((hppFiles target (.dir entries)).map Test.new)) ∧
    (readable (.dir entries) = false →
      enumerate_tests target (.dir entries) = .error ()) := by
  constructor
  · intro h
    exact enum_ok_dir target entries (by rw [readable] at h; exact h)
  · intro h
    exact enum_err_dir target entries (by rw [readable] at h; exact h)

/-- C3: the outcome is `NotFound` iff the project path does not exist (and
then no subprocess is invoked); otherwise exactly one subprocess runs and the
outcome is `Succeeded` on a success exit status, `Failed` on any other exit;
a classified `Failed`/`NotFound` never aborts the loop, while a launch failure
is fatal to the whole run. -/
theorem claim3_judge_classification (w : World) (f s : Bool) (t : Test) :
    (t.judge w f s = ([], .ok .NotFound) ↔ w.pathExists t.project = false) ∧
    (w.pathExists t.project = true →
      (t.judge w f s).1 = [buildCommand f s t.project] ∧
      ((t.judge w f s).2 = .ok .Succeeded ↔
        w.runStatus (buildCommand f s t.project) = some true) ∧
      ((t.judge w f s).2 = .ok .Failed ↔
        w.runStatus (buildCommand f s t.project) = some false) ∧
      ((t.judge w f s).2 = .error () ↔
        w.runStatus (buildCommand f s t.project) = none)) ∧
    (∀ (ts : List Test) (r : TestResult), (t.judge w f s).2 = .ok r →
      (runAll w f s (t :: ts)).2 =
        match (runAll w f s ts).2 with
        | .error e => .error e
        | .ok os => .ok (r :: os)) ∧
    (∀ ts : List Test, (t.judge w f s).2 = .error () →
      (runAll w f s (t :: ts)).2 = .error ()) := by
  refine ⟨?_, ?_, fun ts r h => runAll_cons_ok w f s t ts r h,
    fun ts h => runAll_cons_err w f s t ts h⟩
  · cases hex : w.pathExists t.project with
    | false => simp [Test.judge, hex]
    | true =>
      cases hrun : w.runStatus (buildCommand f s t.project) with
      | none => simp [Test.judge, hex, hrun]
      | some b => simp [Test.judge, hex, hrun]
  · intro hex
    cases hrun : w.runStatus (buildCommand f s t.project) with
    | none => simp [Test.judge, hex, hrun]
    | some b => cases b <;> simp [Test.judge, hex, hrun]

/-- C4: every `Test` pairs its library path with the same path whose
extension is replaced by `test`; the pairing is a function of the library
path (`Test.new`), and for any library name `stem.hpp` the project name is
exactly `stem.test`, so renaming the stem moves the project path along. -/
theorem claim4_project_path_function (lib : Path) :
    ((Test.new lib).library = lib ∧
     (Test.new lib).project = withExtension lib "test".data) ∧
    (∀ (name : Name) (p : Path), rustExtension name = some "hpp".data →
      ∃ stem, stem ≠ [] ∧ name = stem ++ '.' :: "hpp".data ∧
        Test.new (name :: p) =
          { library := name :: p
            project := (stem ++ '.' :: "test".data) :: p }) := by
  refine ⟨⟨rfl, rfl⟩, ?_⟩
  intro name p h
  obtain ⟨stem, hs, hshape⟩ := rustExtension_some_shape name _ h
  refine ⟨stem, hs, hshape, ?_⟩
  subst hshape
  have hw := withExtensionName_append stem "hpp".data "test".data hs
    (by decide) (by decide)
  simp [Test.new, withExtension, hw]

/-- C5: the upward search evaluates the current working directory first:
whenever the marker is visible there, the search returns it with zero upward
steps, whatever the ancestors contain. -/
theorem claim5_root_current_dir_first (ex : Path → Bool) (cwd : Path)
    (h : check_root ex cwd = true) :
    find_lib_root ex cwd = .ok cwd := by
  cases cwd <;> simp [find_lib_root, h]

/-- C6: when no suffix of the working directory (itself, every ancestor, and
the filesystem root) contains the marker, the search fails, `main` fails with
the root-not-found error, and no enumeration happens: the outcome is the same
for every filesystem tree. -/
theorem claim6_root_not_found_fatal (w : MainWorld) (args : List String)
    (h : ∀ q ∈ w.cwd.tails, check_root w.pathExists q = false) :
    find_lib_root w.pathExists w.cwd = .error () ∧
    ((parseArgs w.isTty args).isOk = true →
      mainModel w args = .error .rootNotFound ∧
      ∀ tree2 : Path → Fs,
        mainModel { w with treeAt := tree2 } args = .error .rootNotFound) := by
  have herr := (find_lib_root_err_iff w.pathExists w.cwd).mpr h
  refine ⟨herr, ?_⟩
  intro hok
  cases hp : parseArgs w.isTty args with
  | error e => rw [hp] at hok; simp [Except.isOk, Except.toBool] at hok
  | ok cfg =>
    constructor
    · simp only [mainModel, hp, herr]
    · intro tree2
      simp only [mainModel, hp, herr]

/-- C7 counterexample: the claim states the `color` option's accepted value
set contains `never`, but the program rejects `--color=never` as an unknown
command-line argument (the accepted spelling is `--color=none`). -/
theorem claim7_counterexample :
    parseArgs true ["--color=never"] =
      .error ("unknown command line argument: " ++ "--color=never") := rfl

/-- C7 (amended): the recognized command-line arguments are exactly
`--color=always`, `--color=none`, `--color=auto`, `--no-force`/`-n` and
`--simple`/`-s`, in any order; the first argument outside this set aborts
parsing with an error naming it; the color values accepted are
always / none / auto, and in particular `--color=never` is not accepted. -/
theorem claim7_recognized_args (isTty : Bool) (args : List String) :
    ((parseArgs isTty args).isOk = true ↔ ∀ a ∈ args, a ∈ recognizedArgs) ∧
    (∀ (pre : List String) (a : String) (rest : List String),
      args = pre ++ a :: rest → (∀ b ∈ pre, b ∈ recognizedArgs) →
      a ∉ recognizedArgs →
      parseArgs isTty args = .error ("unknown command line argument: " ++ a)) ∧
    ("--color=always" ∈ recognizedArgs ∧ "--color=none" ∈ recognizedArgs ∧
     "--color=auto" ∈ recognizedArgs ∧ "--color=never" ∉ recognizedArgs) := by
  refine ⟨parseArgsFrom_ok_iff _ args, ?_, by decide⟩
  intro pre a rest harg hpre ha
  subst harg
  exact parseArgsFrom_err _ pre a rest hpre ha

/-- C8: force-rebuild defaults to enabled and stderr suppression to disabled;
`force` is off exactly when `--no-force`/`-n` was given and `simple` is on
exactly when `--simple`/`-s` was given; every invoked subprocess is the one
built by `buildCommand`, which passes `--force` exactly when `force` is set,
nulls stdin and stdout always, and nulls stderr exactly when `simple` is set
(otherwise stderr is inherited). -/
theorem claim8_subprocess_wiring (isTty : Bool) (args : List String)
    (cfg : Config) (hp : parseArgs isTty args = .ok cfg) :
    parseArgs isTty [] = .ok { colorize := isTty, force := true, simple := false } ∧
    (cfg.force = false ↔ "--no-force" ∈ args ∨ "-n" ∈ args) ∧
    (cfg.simple = true ↔ "--simple" ∈ args ∨ "-s" ∈ args) ∧
    (∀ (w : World) (t : Test), w.pathExists t.project = true →
      (t.judge w cfg.force cfg.simple).1 =
        [buildCommand cfg.force cfg.simple t.project]) ∧
    (∀ (f s : Bool) (project : Path),
      ("--force" ∈ (buildCommand f s project).args ↔ f = true) ∧
      (buildCommand f s project).stdin = .null ∧
      (buildCommand f s project).stdout = .null ∧
      ((buildCommand f s project).stderr = .null ↔ s = true) ∧
      ((buildCommand f s project).stderr = .inherit ↔ s = false) ∧
      (buildCommand f s project).cwd = project) := by
  refine ⟨rfl, ?_, ?_, ?_, ?_⟩
  · have := parseArgsFrom_force _ args cfg hp
    simpa using this
  · have := parseArgsFrom_simple _ args cfg hp
    simpa using this
  · intro w t hex
    cases hrun : w.runStatus (buildCommand cfg.force cfg.simple t.project) with
    | none => simp [Test.judge, hex, hrun]
    | some b => simp [Test.judge, hex, hrun]
  · intro f s project
    cases f <;> cases s <;> simp [buildCommand]

/-- C9: enumeration recurses into every subdirectory whatever its name — in
particular into directories with the `test` extension — so an `hpp` file
inside a test-project directory is itself emitted as a unit. -/
theorem claim9_recurse_into_test_dirs (target : Path) (name : Name)
    (rest : List (Name × Fs)) (tail : List Test)
    (hrest : enumerateEntries target rest = .ok tail) :
    (∀ (cs : List (Name × Fs)) (sub : List Test),
      enumerate_tests (name :: target) (.dir cs) = .ok sub →
      enumerateEntries target ((name, Fs.dir cs) :: rest) = .ok (sub ++ tail)) ∧
    (∀ inner : Name, rustExtension inner = some "hpp".data →
      enumerateEntries target ((name, Fs.dir [(inner, Fs.file)]) :: rest) =
        .ok (Test.new (inner :: name :: target) :: tail)) := by
  constructor
  · intro cs sub hsub
    simp [enumerateEntries, hsub, hrest]
  · intro inner hx
    simp [enumerateEntries, enumerate_tests, hx, hrest]

/-- C10: the report line strips the root from the library path only when the
path's string rendering is the root's rendering followed by the separator and
a remainder, in which case exactly that remainder is printed; any other
string — including the root itself — is printed unchanged. -/
theorem claim10_root_removed (path root : List Char) :
    (∀ rest, path = root ++ MAIN_SEPARATOR :: rest →
      path_root_removed path root = rest) ∧
    ((∀ rest, path ≠ root ++ MAIN_SEPARATOR :: rest) →
      path_root_removed path root = path) ∧
    path_root_removed root root = root := by
  refine ⟨?_, ?_, ?_⟩
  · intro rest h
    have hpre : (root ++ [MAIN_SEPARATOR]).isPrefixOf path = true := by
      rw [isPrefixOf_iff_ex]
      exact ⟨rest, by simp [h]⟩
    simp only [path_root_removed]
    rw [if_pos hpre, h]
    have : root ++ MAIN_SEPARATOR :: rest = (root ++ [MAIN_SEPARATOR]) ++ rest := by
      simp
    rw [this, drop_length_append]
  · intro hne
    have hnp : ¬((root ++ [MAIN_SEPARATOR]).isPrefixOf path = true) := by
      rw [isPrefixOf_iff_ex]
      rintro ⟨r, hr⟩
      exact hne r (by simpa using hr)
    simp only [path_root_removed]
    rw [if_neg hnp]
  · have hnp : ¬((root ++ [MAIN_SEPARATOR]).isPrefixOf root = true) := by
      rw [isPrefixOf_iff_ex]
      rintro ⟨r, hr⟩
      have := congrArg List.length hr
      simp [List.length_append] at this
    simp only [path_root_removed]
    rw [if_neg hnp]

/-- A sample world: the working directory is the filesystem root, which holds
the marker, and two library files of which only `a` has a test project; the
external tool always succeeds. -/
def w1 : MainWorld :=
  { isTty := true
    cwd := []
    pathExists := fun p =>
      decide (p = ["marker_lib_root".data] ∨ p = ["a.test".data])
    treeAt := fun _ => Fs.dir [("a.hpp".data, Fs.file), ("b.hpp".data, Fs.file)]
    runStatus := fun _ => some true }

/-- Witness for C1 on `w1`: one success and one not-found, so the run exits
successfully. -/
theorem claim1_witness :
    parseArgs w1.isTty [] = .ok ⟨true, true, false⟩ ∧
    find_lib_root w1.pathExists w1.cwd = .ok [] ∧
    enumerate_tests [] (w1.treeAt []) =
      .ok [Test.new ["a.hpp".data], Test.new ["b.hpp".data]] ∧
    (runAll ⟨w1.pathExists, w1.runStatus⟩ true false
        [Test.new ["a.hpp".data], Test.new ["b.hpp".data]]).2 =
      .ok [TestResult.Succeeded, TestResult.NotFound] ∧
    ((summarize [TestResult.Succeeded, TestResult.NotFound]).failed = 0 →
      mainModel w1 [] =
        .ok (summarize [TestResult.Succeeded, TestResult.NotFound])) := by
  have he : enumerate_tests [] (w1.treeAt []) =
      .ok [Test.new ["a.hpp".data], Test.new ["b.hpp".data]] := by
    have h1 : rustExtension "a.hpp".data = some "hpp".data := by decide
    have h2 : rustExtension "b.hpp".data = some "hpp".data := by decide
    simp [w1, enumerate_tests, enumerateEntries, h1, h2]
  exact ⟨rfl, rfl, he, rfl,
    (claim1_summary_counters_and_exit w1 [] ⟨true, true, false⟩ []
      [Test.new ["a.hpp".data], Test.new ["b.hpp".data]]
      [TestResult.Succeeded, TestResult.NotFound] rfl rfl he rfl).2.2.2.2.2.2⟩

/-- A sample tree with a nested `hpp` file and an ignored `other` entry. -/
def ents2 : List (Name × Fs) :=
  [("a.hpp".data, Fs.file),
   ("sub".data, Fs.dir [("b.hpp".data, Fs.file), ("c.txt".data, Fs.file)]),
   ("dev".data, Fs.other)]

/-- Witness for C2 on `ents2`. -/
theorem claim2_witness :
    readable (Fs.dir ents2) = true ∧
    enumerate_tests [] (Fs.dir ents2) =
      .ok ((hppFiles [] (Fs.dir ents2)).map Test.new) := by
  have h : readable (Fs.dir ents2) = true := by
    simp [ents2, readable, readableEntries]
  exact ⟨h, (claim2_enumerate_spec [] ents2).1 h⟩

/-- A sample world for judging: only `t.test` exists, tool succeeds. -/
def w3 : World :=
  { pathExists := fun p => decide (p = ["t.test".data])
    runStatus := fun _ => some true }

/-- Witness for C3 on `w3`: the project exists and the tool exits
successfully, so the outcome is `Succeeded`. -/
theorem claim3_witness :
    w3.pathExists (Test.new ["t.hpp".data]).project = true ∧
    ((Test.new ["t.hpp".data]).judge w3 true false).2 = .ok .Succeeded := by
  have hex : w3.pathExists (Test.new ["t.hpp".data]).project = true := by decide
  exact ⟨hex,
    (((claim3_judge_classification w3 true false
      (Test.new ["t.hpp".data])).2.1 hex).2.1).mpr rfl⟩

/-- Witness for C4 at the name `abc.hpp`. -/
theorem claim4_witness :
    rustExtension "abc.hpp".data = some "hpp".data ∧
    ∃ stem, stem ≠ [] ∧ "abc.hpp".data = stem ++ '.' :: "hpp".data ∧
      Test.new ["abc.hpp".data] =
        { library := ["abc.hpp".data]
          project := [stem ++ '.' :: "test".data] } :=
  ⟨by decide,
   (claim4_project_path_function []).2 "abc.hpp".data [] (by decide)⟩

/-- An existence oracle with the marker both in `/work` and in `/`. -/
def ex5 : Path → Bool := fun p =>
  decide (p = ["marker_lib_root".data, "work".data] ∨ p = ["marker_lib_root".data])

/-- Witness for C5: the current directory `/work` wins over the ancestor `/`
that also holds the marker. -/
theorem claim5_witness :
    check_root ex5 ["work".data] = true ∧
    check_root ex5 [] = true ∧
    find_lib_root ex5 ["work".data] = .ok ["work".data] :=
  ⟨by decide, by decide,
   claim5_root_current_dir_first ex5 ["work".data] (by decide)⟩

/-- A sample world with no marker anywhere. -/
def w6 : MainWorld :=
  { isTty := false
    cwd := ["home".data]
    pathExists := fun _ => false
    treeAt := fun _ => Fs.dir []
    runStatus := fun _ => none }

/-- Witness for C6 on `w6`. -/
theorem claim6_witness :
    (∀ q ∈ w6.cwd.tails, check_root w6.pathExists q = false) ∧
    mainModel w6 [] = .error .rootNotFound := by
  have h : ∀ q ∈ w6.cwd.tails, check_root w6.pathExists q = false := by
    intro q _
    rfl
  exact ⟨h, ((claim6_root_not_found_fatal w6 [] h).2 rfl).1⟩

/-- Witness for C7 (amended) at the unknown argument `bogus`. -/
theorem claim7_witness :
    ("bogus" ∉ recognizedArgs) ∧
    parseArgs true ["bogus"] =
      .error ("unknown command line argument: " ++ "bogus") :=
  ⟨by decide,
   (claim7_recognized_args true ["bogus"]).2.1 [] "bogus" [] rfl
     (by simp) (by decide)⟩

/-- Witness for C8: `--no-force --simple` turns `force` off. -/
theorem claim8_witness :
    parseArgs true ["--no-force", "--simple"] =
      .ok { colorize := true, force := false, simple := true } ∧
    (({ colorize := true, force := false, simple := true } : Config).force
        = false ↔
      "--no-force" ∈ (["--no-force", "--simple"] : List String) ∨
      "-n" ∈ (["--no-force", "--simple"] : List String)) :=
  ⟨rfl, (claim8_subprocess_wiring true ["--no-force", "--simple"]
    { colorize := true, force := false, simple := true } rfl).2.1⟩

/-- Witness for C9: an `hpp` file inside a directory named `x.test` is
emitted. -/
theorem claim9_witness :
    rustExtension "x.test".data = some "test".data ∧
    rustExtension "y.hpp".data = some "hpp".data ∧
    enumerateEntries [] [("x.test".data, Fs.dir [("y.hpp".data, Fs.file)])] =
      .ok [Test.new ["y.hpp".data, "x.test".data]] :=
  ⟨by decide, by decide,
   (claim9_recurse_into_test_dirs [] "x.test".data [] [] rfl).2
     "y.hpp".data (by decide)⟩

/-- Witness for C10: `/r/a.hpp` under the root `/r` prints as `a.hpp`, and
the root itself prints unchanged. -/
theorem claim10_witness :
    "/r/a.hpp".data = "/r".data ++ MAIN_SEPARATOR :: "a.hpp".data ∧
    path_root_removed "/r/a.hpp".data "/r".data = "a.hpp".data ∧
    path_root_removed "/r".data "/r".data = "/r".data :=
  ⟨by decide,
   (claim10_root_removed "/r/a.hpp".data "/r".data).1 "a.hpp".data (by decide),
   (claim10_root_removed "/r/a.hpp".data "/r".data).2.2⟩

end ProconLibTester
